import Mathlib

/-
Verification development for `todo_calendar_gui.py` (arteaga34/todo-calendar).

The file shallowly embeds the program's core logic:
  * the natural-language time/range parser `parse_time` (Python, lines 162-227),
    with the third-party `dateparser.parse` library abstracted as an oracle
    `dp : String → Option PyDateTime`;
  * the calendar gateway operations `get_events`, `delete_event`, `move_event`
    (lines 81-160), with the remote Google Calendar service modelled as an
    explicit store plus a call log;
  * the task submission flow `add_task` / `add_to_things` / `add_to_calendar`
    (lines 229-293) and the JavaScript `addTask` draft handling (1391-1428);
  * the JavaScript week-view bucketing in `renderCalendar` (1157-1182) and the
    today-sidebar filter in `updateTodaySchedule` (1315-1356).

Python's `re.search` on the fixed pattern
  (.+?)\s*[-–to]+\s*(\d{1,2}(?::\d{2})?\s*(?:am|pm)?)\s*$
with IGNORECASE is embedded as an explicit backtracking matcher that follows
the engine's priority order (leftmost start, lazy `.+?`, greedy quantifiers),
so that the extracted groups agree with CPython's.
-/

namespace TodoCalendar

/-- Model of a Python naive `datetime.datetime`, at second granularity (the
microsecond component is always zero in the flows of this program). Comparison
of `datetime` objects in CPython is lexicographic on the field tuple. -/
structure PyDateTime where
  year : Int
  month : Int
  day : Int
  hour : Int
  minute : Int
  second : Int
deriving DecidableEq

/-- Days since 1970-01-01 of a proleptic-Gregorian civil date
(Howard Hinnant's `days_from_civil` algorithm, the arithmetic underlying
Python `datetime` subtraction). -/
def daysFromCivil (y m d : Int) : Int :=
  let y2 : Int := if m ≤ 2 then y - 1 else y
  let era : Int := Int.fdiv y2 400
  let yoe : Int := y2 - era * 400
  let mp : Int := Int.emod (m + 9) 12
  let doy : Int := Int.fdiv (153 * mp + 2) 5 + d - 1
  let doe : Int := yoe * 365 + Int.fdiv yoe 4 - Int.fdiv yoe 100 + doy
  era * 146097 + doe - 719468

/-- Inverse of `daysFromCivil` (Hinnant's `civil_from_days`). -/
def civilFromDays (z0 : Int) : Int × Int × Int :=
  let z : Int := z0 + 719468
  let era : Int := Int.fdiv z 146097
  let doe : Int := z - era * 146097
  let yoe : Int :=
    Int.fdiv (doe - Int.fdiv doe 1460 + Int.fdiv doe 36524 - Int.fdiv doe 146096) 365
  let y : Int := yoe + era * 400
  let doy : Int := doe - (365 * yoe + Int.fdiv yoe 4 - Int.fdiv yoe 100)
  let mp : Int := Int.fdiv (5 * doy + 2) 153
  let d : Int := doy - Int.fdiv (153 * mp + 2) 5 + 1
  let m : Int := if mp < 10 then mp + 3 else mp - 9
  (if m ≤ 2 then y + 1 else y, m, d)

/-- Seconds since the epoch of a `PyDateTime`; `(a - b).total_seconds()` in
Python equals `toEpochSec a - toEpochSec b`. -/
def toEpochSec (t : PyDateTime) : Int :=
  daysFromCivil t.year t.month t.day * 86400 + t.hour * 3600 + t.minute * 60 + t.second

/-- Rebuild a `PyDateTime` from epoch seconds. -/
def fromEpochSec (n : Int) : PyDateTime :=
  let days : Int := Int.fdiv n 86400
  let rem : Int := Int.emod n 86400
  let c := civilFromDays days
  { year := c.1, month := c.2.1, day := c.2.2,
    hour := Int.fdiv rem 3600, minute := Int.fdiv (Int.emod rem 3600) 60,
    second := Int.emod rem 60 }

/-- `t + datetime.timedelta(seconds=k)`. -/
def addSeconds (t : PyDateTime) (k : Int) : PyDateTime :=
  fromEpochSec (toEpochSec t + k)

/-- CPython's `datetime.__le__`: lexicographic comparison of the field tuple. -/
def pyLe (a b : PyDateTime) : Bool :=
  if a.year < b.year then true else if b.year < a.year then false
  else if a.month < b.month then true else if b.month < a.month then false
  else if a.day < b.day then true else if b.day < a.day then false
  else if a.hour < b.hour then true else if b.hour < a.hour then false
  else if a.minute < b.minute then true else if b.minute < a.minute then false
  else decide (a.second ≤ b.second)

/-- Python `date.weekday()`: Monday = 0 … Sunday = 6. 1970-01-01 was a
Thursday (weekday 3). -/
def pyWeekday (t : PyDateTime) : Int :=
  Int.emod (daysFromCivil t.year t.month t.day + 3) 7

/-- Left-pad the decimal rendering of a nonnegative integer to 2 digits. -/
def pad2 (n : Int) : String :=
  let m := n.natAbs
  if m < 10 then "0" ++ toString m else toString m

/-- Left-pad the decimal rendering of a nonnegative integer to 4 digits. -/
def pad4 (n : Int) : String :=
  let m := n.natAbs
  if m < 10 then "000" ++ toString m
  else if m < 100 then "00" ++ toString m
  else if m < 1000 then "0" ++ toString m
  else toString m

/-- `strftime('%Y-%m-%d')`. -/
def fmtDate (t : PyDateTime) : String :=
  pad4 t.year ++ "-" ++ pad2 t.month ++ "-" ++ pad2 t.day

/-- `datetime.isoformat()` for a microsecond-free value:
`YYYY-MM-DDTHH:MM:SS`. -/
def fmtIso (t : PyDateTime) : String :=
  fmtDate t ++ "T" ++ pad2 t.hour ++ ":" ++ pad2 t.minute ++ ":" ++ pad2 t.second

/-- Full weekday name, indexed by Python weekday number (`%A`, C locale). -/
def weekdayName (w : Int) : String :=
  if w = 0 then "Monday" else if w = 1 then "Tuesday" else if w = 2 then "Wednesday"
  else if w = 3 then "Thursday" else if w = 4 then "Friday" else if w = 5 then "Saturday"
  else "Sunday"

/-- Full month name (`%B`, C locale). -/
def monthName (m : Int) : String :=
  if m = 1 then "January" else if m = 2 then "February" else if m = 3 then "March"
  else if m = 4 then "April" else if m = 5 then "May" else if m = 6 then "June"
  else if m = 7 then "July" else if m = 8 then "August" else if m = 9 then "September"
  else if m = 10 then "October" else if m = 11 then "November" else "December"

/-- `strftime('%A, %B %d at %I:%M %p')`, the human-readable rendering that
`parse_time` returns. -/
def fmtLong (t : PyDateTime) : String :=
  let h12 : Int := let h := Int.emod t.hour 12; if h = 0 then 12 else h
  weekdayName (pyWeekday t) ++ ", " ++ monthName t.month ++ " " ++ pad2 t.day ++
    " at " ++ pad2 h12 ++ ":" ++ pad2 t.minute ++ " " ++
    (if t.hour < 12 then "AM" else "PM")

/- ### The range regex

Pattern (line 167 of the source):
  (.+?)\s*[-–to]+\s*(\d{1,2}(?::\d{2})?\s*(?:am|pm)?)\s*$
compiled with `re.IGNORECASE` and applied with `re.search`.

Note `[-–to]+` is a character class: one or more of the characters
hyphen, en-dash, `t`, `o` (and, under IGNORECASE, `T`, `O`). -/

/-- Python `\s` restricted to the ASCII whitespace characters (the inputs this
program handles are ASCII). -/
def isPySpace (c : Char) : Bool :=
  c == ' ' || c == '\t' || c == '\n' || c == '\r' || c == '\x0B' || c == '\x0C'

/-- Membership in the character class `[-–to]` under IGNORECASE. -/
def isSepChar (c : Char) : Bool :=
  c == '-' || c == '–' || c == 't' || c == 'T' || c == 'o' || c == 'O'

/-- All ways for a greedy `p*` to split a string, longest consumption first
(the backtracking priority order). Each element is (consumed, remainder). -/
def starSplits (p : Char → Bool) : List Char → List (List Char × List Char)
  | [] => [([], [])]
  | c :: rest =>
    if p c then
      ((starSplits p rest).map fun pr => (c :: pr.1, pr.2)) ++ [([], c :: rest)]
    else [([], c :: rest)]

/-- All ways for a greedy `p+` to split a string, longest first. -/
def plusSplits (p : Char → Bool) (cs : List Char) : List (List Char × List Char) :=
  match cs with
  | [] => []
  | c :: rest =>
    if p c then (starSplits p rest).map fun pr => (c :: pr.1, pr.2) else []

/-- All ways for a lazy `.+?` (dot excludes newline) to split a string,
shortest consumption first. -/
def dotSplits : List Char → List (List Char × List Char)
  | [] => []
  | c :: rest =>
    if c == '\n' then []
    else ([c], rest) :: ((dotSplits rest).map fun pr => (c :: pr.1, pr.2))

/-- `\d{1,2}` greedy: the two-digit split (when available) before the
one-digit split. -/
def digitSplits (cs : List Char) : List (List Char × List Char) :=
  match cs with
  | a :: b :: rest =>
    (if a.isDigit && b.isDigit then [([a, b], rest)] else []) ++
      (if a.isDigit then [([a], b :: rest)] else [])
  | [a] => if a.isDigit then [([a], [])] else []
  | [] => []

/-- `(?::\d{2})?` greedy: the present alternative before the empty one. -/
def minuteSplits (cs : List Char) : List (List Char × List Char) :=
  match cs with
  | c :: a :: b :: _rest =>
    (if c == ':' && a.isDigit && b.isDigit then [([c, a, b], _rest)] else []) ++ [([], cs)]
  | _ => [([], cs)]

/-- `(?:am|pm)?` under IGNORECASE, greedy: present before empty. -/
def ampmSplits (cs : List Char) : List (List Char × List Char) :=
  match cs with
  | a :: m :: rest =>
    (if (a.toLower == 'a' || a.toLower == 'p') && m.toLower == 'm'
     then [([a, m], rest)] else []) ++ [([], cs)]
  | _ => [([], cs)]

/-- All splits of the capture group `(\d{1,2}(?::\d{2})?\s*(?:am|pm)?)`, in
backtracking priority order. -/
def clockSplits (cs : List Char) : List (List Char × List Char) :=
  (digitSplits cs).flatMap fun dr =>
    (minuteSplits dr.2).flatMap fun mr =>
      (starSplits isPySpace mr.2).flatMap fun sr =>
        (ampmSplits sr.2).map fun ar => (dr.1 ++ mr.1 ++ sr.1 ++ ar.1, ar.2)

/-- A successful match of the range pattern, cut into the pattern's pieces.
`g1` and `g2` are the two capture groups; `pre` is the text skipped before the
leftmost match start. -/
structure RMatch where
  pre : List Char
  g1 : List Char
  sp1 : List Char
  sep : List Char
  sp2 : List Char
  g2 : List Char
  tl : List Char
deriving DecidableEq

/-- Match `\s*[-–to]+\s*(clock)\s*$` at the start of `cs`, returning the first
success in backtracking priority order. -/
def matchAfterG1 (cs : List Char) :
    Option (List Char × List Char × List Char × List Char × List Char) :=
  (starSplits isPySpace cs).findSome? fun s1 =>
    (plusSplits isSepChar s1.2).findSome? fun sp =>
      (starSplits isPySpace sp.2).findSome? fun s2 =>
        (clockSplits s2.2).findSome? fun g2 =>
          if g2.2.all isPySpace then some (s1.1, sp.1, s2.1, g2.1, g2.2) else none

/-- Match the whole pattern with the match starting at the head of `cs`
(`pre` is the already-skipped prefix). -/
def matchAt (pre cs : List Char) : Option RMatch :=
  (dotSplits cs).findSome? fun g1 =>
    (matchAfterG1 g1.2).map fun r =>
      { pre := pre, g1 := g1.1, sp1 := r.1, sep := r.2.1, sp2 := r.2.2.1,
        g2 := r.2.2.2.1, tl := r.2.2.2.2 }

/-- `re.search`: try match starts left to right. -/
def reSearchAux : List Char → List Char → Option RMatch
  | _, [] => none
  | pre, c :: rest =>
    match matchAt pre (c :: rest) with
    | some m => some m
    | none => reSearchAux (pre ++ [c]) rest

/-- `re.search(range_pattern, s, re.IGNORECASE)` from line 168 of the source. -/
def reSearchDetail (s : String) : Option RMatch :=
  reSearchAux [] s.toList

/-- Whether the input is detected as a time range. -/
def rangeDetected (s : String) : Bool :=
  (reSearchDetail s).isSome

/- ### parse_time (source lines 162-227) -/

/-- Python `str.strip()` on ASCII input. -/
def pyStrip (s : String) : String :=
  String.mk (((s.toList.dropWhile isPySpace).reverse.dropWhile isPySpace).reverse)

/-- `re.search(r'(am|pm)', s, re.IGNORECASE)` viewed as a Boolean: does `s`
contain `am` or `pm`, case-insensitively? -/
def hasAmPmL : List Char → Bool
  | a :: m :: rest =>
    ((a.toLower == 'a' || a.toLower == 'p') && m.toLower == 'm') || hasAmPmL (m :: rest)
  | _ => false

/-- String version of `hasAmPmL`. -/
def hasAmPm (s : String) : Bool :=
  hasAmPmL s.toList

/-- Lines 185-191: when the end clock has no am/pm marker, append the start's
period (`am` if the start hour is before noon, else `pm`). -/
def inferredEnd (endPart : String) (startParsed : PyDateTime) : String :=
  if startParsed.hour < 12 then endPart ++ "am" else endPart ++ "pm"

/-- Result of `parse_time`. `ok` is the success dictionary (the rendering, the
`iso` timestamp of the start, and the optional duration); `failure` is
`{"success": False, "message": …}` carrying nothing else; `valueError` is an
uncaught Python `ValueError` escaping `parse_time`. -/
inductive ParseResult
  | ok (parsed : String) (iso : PyDateTime) (duration : Option Int)
  | failure (message : String)
  | valueError
deriving DecidableEq

/-- `CalendarAPI.parse_time` (lines 162-227). The third-party
`dateparser.parse(·, settings={'PREFER_DATES_FROM': 'future'})` is the oracle
`dp`; everything else follows the source line by line. Note line 203 is
`end_parsed.replace(hour=end_parsed.hour + 12)`, which raises `ValueError`
when the new hour exceeds 23. -/
def parse_time (dp : String → Option PyDateTime) (time_input : String) : ParseResult :=
  let fallback : ParseResult :=
    match dp time_input with
    | some parsed => ParseResult.ok (fmtLong parsed) parsed none
    | none => ParseResult.failure "Could not parse time"
  match reSearchDetail time_input with
  | none => fallback
  | some m =>
    let start_part := pyStrip (String.mk m.g1)
    match dp start_part with
    | none => fallback
    | some start_parsed =>
      let ep0 := pyStrip (String.mk m.g2)
      let end_part := if hasAmPm ep0 then ep0 else inferredEnd ep0 start_parsed
      let end_str := fmtDate start_parsed ++ " " ++ end_part
      match dp end_str with
      | none => fallback
      | some end_parsed =>
        if pyLe end_parsed start_parsed then
          if end_parsed.hour + 12 ≤ 23 then
            let e2 := { end_parsed with hour := end_parsed.hour + 12 }
            ParseResult.ok (fmtLong start_parsed) start_parsed
              (some (Int.tdiv (toEpochSec e2 - toEpochSec start_parsed) 60))
          else ParseResult.valueError
        else
          ParseResult.ok (fmtLong start_parsed) start_parsed
            (some (Int.tdiv (toEpochSec end_parsed - toEpochSec start_parsed) 60))

/-- Sample behaviour of `dateparser.parse` with future preference, at a fixed
reference instant in mid-January 2025: bare clock times resolve to their next
future occurrence, and `YYYY-MM-DD <clock>` resolves on that date. Used to
instantiate the parser theorems on concrete inputs. -/
def dpFix (s : String) : Option PyDateTime :=
  if s = "9am" then some ⟨2025, 1, 16, 9, 0, 0⟩
  else if s = "2025-01-16 11am" then some ⟨2025, 1, 16, 11, 0, 0⟩
  else if s = "9pm" then some ⟨2025, 1, 15, 21, 0, 0⟩
  else if s = "2025-01-15 5pm" then some ⟨2025, 1, 15, 17, 0, 0⟩
  else none

/- ### The JavaScript week view (renderCalendar, lines 1131-1312, and
updateTodaySchedule, lines 1315-1356)

JavaScript `Date` values are modelled by their epoch-millisecond number; the
events handed to `renderCalendar` carry the parsed `new Date(event.start)` /
`new Date(event.end)` values. -/

/-- An event as the JavaScript layer sees it (epoch milliseconds). -/
structure JsEvent where
  id : String
  title : String
  start : Int
  endTime : Int
  isAllDay : Bool
deriving DecidableEq

/-- Line 1164: `Math.floor((start - weekStart) / (24 * 60 * 60 * 1000))`. -/
def bucketIdx (startMs weekStart : Int) : Int :=
  Int.fdiv (startMs - weekStart) 86400000

/-- An event decorated with its color class, as pushed into the day buckets. -/
structure Placed where
  ev : JsEvent
  colorClass : String
deriving DecidableEq

/-- Lines 1165-1179: `isCompleted = end < now` and the resulting color class
`event-completed` / `event-normal`. -/
def decorate (now : Int) (e : JsEvent) : Placed :=
  ⟨e, if e.endTime < now then "event-completed" else "event-normal"⟩

/-- `eventsByDay[d]` for `0 ≤ d ≤ 6`: the timed events of bucket `d`
(lines 1158-1182). Events whose bucket index falls outside `[0,6]` appear in
no bucket. -/
def eventsByDay (events : List JsEvent) (weekStart now d : Int) : List Placed :=
  (events.filter fun e => !e.isAllDay && bucketIdx e.start weekStart == d).map (decorate now)

/-- `allDayByDay[d]` for `0 ≤ d ≤ 6`: the all-day events of bucket `d`. -/
def allDayByDay (events : List JsEvent) (weekStart now d : Int) : List Placed :=
  (events.filter fun e => e.isAllDay && bucketIdx e.start weekStart == d).map (decorate now)

/-- Lines 1337-1339 of `updateTodaySchedule`: the status glyph of a sidebar
item (`✓` completed, `▸` in progress, `○` upcoming). -/
def scheduleStatus (now : Int) (e : JsEvent) : String :=
  if e.endTime < now then "✓"
  else if e.start ≤ now && now ≤ e.endTime then "▸"
  else "○"

/-- Lines 1319-1324 of `updateTodaySchedule`: `todayEvents` is the displayed
week's timed events whose bucket index (computed against the displayed week's
`weekStart`) equals `todayIdx` (today's weekday index, computed from `now`),
sorted ascending by start. -/
def todayEvents (events : List JsEvent) (weekStart todayIdx : Int) : List JsEvent :=
  ((events.filter fun e =>
      !e.isAllDay && bucketIdx e.start weekStart == todayIdx).mergeSort
    fun a b => a.start ≤ b.start)

/- ### Task submission (add_task lines 229-247, add_to_things 249-268,
add_to_calendar 270-293, JavaScript addTask 1391-1428)

The two collaborators (the Things app reached through `osascript`, and the
Google Calendar insert) are external; their outcomes are oracle Booleans, and
a `MirrorWorld` records how many times each collaborator function was
invoked. -/

/-- Effect log of the two mirror destinations. -/
structure MirrorWorld where
  thingsAttempts : Nat
  calendarAttempts : Nat
deriving DecidableEq

/-- `add_to_things` (lines 249-268): runs the AppleScript and returns `True`
on success, `False` on any exception. `outcome` is the external result. -/
def add_to_things (outcome : Bool) (w : MirrorWorld) : Bool × MirrorWorld :=
  (outcome, { w with thingsAttempts := w.thingsAttempts + 1 })

/-- `add_to_calendar` (lines 270-293): returns `False` immediately when no
service is connected, otherwise the external insert's outcome. -/
def add_to_calendar (connected outcome : Bool) (w : MirrorWorld) : Bool × MirrorWorld :=
  let w2 := { w with calendarAttempts := w.calendarAttempts + 1 }
  if !connected then (false, w2) else (outcome, w2)

/-- Result dictionary of `add_task`: `settled success things calendar`
corresponds to `{"success": …, "things": …, "calendar": …}`; `error` is the
`except` branch (invalid `time_iso` or duration). -/
inductive AddTaskResult
  | settled (success things calendar : Bool)
  | error (message : String)
deriving DecidableEq

/-- `CalendarAPI.add_task` (lines 229-247). `startTime?` is the result of
`datetime.fromisoformat(time_iso)` (`none` models the exception caught by the
`except` clause, in which case neither collaborator is called). -/
def add_task (startTime? : Option PyDateTime) (thingsOutcome connected calOutcome : Bool)
    (w : MirrorWorld) : AddTaskResult × MirrorWorld :=
  match startTime? with
  | none => (AddTaskResult.error "invalid time", w)
  | some _ =>
    let tr := add_to_things thingsOutcome w
    let cr := add_to_calendar connected calOutcome tr.2
    (AddTaskResult.settled (tr.1 && cr.1) tr.1 cr.1, cr.2)

/-- The transient draft fields of the New Task form (JavaScript state). -/
structure DraftState where
  taskName : String
  taskTime : String
  taskDuration : String
  parsedTimeText : String
  parsedTimeISO : Option String
deriving DecidableEq

/-- The cleared form (lines 1416-1420). -/
def clearedDraft : DraftState :=
  ⟨"", "", "", "", none⟩

/-- Lines 1414-1427 of the JavaScript `addTask`: the draft is cleared exactly
when `result.success` is true, otherwise it is left untouched (only a toast is
shown). -/
def addTaskUI (d : DraftState) (r : AddTaskResult) : DraftState :=
  match r with
  | AddTaskResult.settled true _ _ => clearedDraft
  | _ => d

/- ### Calendar gateway (get_events 81-120, delete_event 122-131,
move_event 133-160)

Remote Google event resources are dictionaries; we model the values that this
program reads and writes: strings, and the `{'dateTime'/'date'/'timeZone'}`
sub-dictionaries of the `start`/`end` keys. -/

/-- A JSON value inside a remote event resource. -/
inductive JVal
  | str (s : String)
  | tdict (fields : List (String × String))
deriving DecidableEq

/-- A remote event resource. -/
abbrev GDict := List (String × JVal)

/-- Python `d[k] = v` on a dictionary modelled as an association list with
unique keys: replace the binding in place if the key is present, otherwise
append it at the end. -/
def dictSet : GDict → String → JVal → GDict
  | [], k, v => [(k, v)]
  | (k1, v1) :: tl, k, v =>
    if k1 == k then (k1, v) :: tl else (k1, v1) :: dictSet tl k v

/-- `.get(k)` on a `start`/`end` sub-dictionary. -/
def tget (v : JVal) (k : String) : Option String :=
  match v with
  | JVal.str _ => none
  | JVal.tdict fields => fields.lookup k

/-- One remote API request, as logged by the model of the Google service. -/
inductive RemoteCall
  | listCall (timeMin timeMax : String)
  | getCall (eventId : String)
  | updateCall (eventId : String) (body : GDict)
  | deleteCall (eventId : String)
deriving DecidableEq

/-- The remote calendar: a store of event resources keyed by id, plus the log
of requests made against it. -/
structure RemoteState where
  store : List (String × GDict)
  calls : List RemoteCall
deriving DecidableEq

/-- The event dictionary that `get_events` builds for the JavaScript side
(lines 104-110). -/
structure EventOut where
  id : Option String
  title : String
  start : String
  endTime : String
  isAllDay : Bool
deriving DecidableEq

/-- Lines 100-110: extract one item;
`start = event['start'].get('dateTime', event['start'].get('date'))`,
`isAllDay = 'T' not in start`. `none` models an item malformed enough that the
extraction raises. -/
def extractEvent (d : GDict) : Option EventOut :=
  match d.lookup "start", d.lookup "end" with
  | some sv, some ev =>
    match (tget sv "dateTime").orElse (fun _ => tget sv "date"),
          (tget ev "dateTime").orElse (fun _ => tget ev "date") with
    | some s, some e =>
      some { id := match d.lookup "id" with | some (JVal.str i) => some i | _ => none,
             title := match d.lookup "summary" with | some (JVal.str t) => t | _ => "No title",
             start := s, endTime := e,
             isAllDay := !(s.toList.contains 'T') }
    | _, _ => none
  | _, _ => none

/-- Result of `get_events`: on success the events plus the week window; on
failure `{"success": False, "events": [], "message": …}`. -/
inductive EventsResult
  | ok (events : List EventOut) (weekStart weekEnd : PyDateTime) (weekOffset : Int)
  | err (message : String)
deriving DecidableEq

/-- Result of `delete_event` / `move_event`. -/
inductive OpResult
  | ok
  | err (message : String)
deriving DecidableEq

/-- `CalendarAPI.get_events` (lines 81-120). `connected` is `self.service is
not None`; `now` is `datetime.now()`. The remote `events().list` request is
modelled as returning every stored resource (windowing happens inside the
external service); the window bounds passed to it are computed exactly as in
the source. -/
def get_events (connected : Bool) (now : PyDateTime) (st : RemoteState)
    (week_offset : Int) : EventsResult × RemoteState :=
  if !connected then (EventsResult.err "Not connected", st)
  else
    let today : PyDateTime := { now with hour := 0, minute := 0, second := 0 }
    let monday := addSeconds today ((week_offset * 7 - pyWeekday today) * 86400)
    let sunday := addSeconds monday (6 * 86400 + 23 * 3600 + 59 * 60 + 59)
    let st2 := { st with
      calls := st.calls ++ [RemoteCall.listCall (fmtIso monday ++ "Z") (fmtIso sunday ++ "Z")] }
    let outs := (st.store.map Prod.snd).map extractEvent
    if outs.all Option.isSome then
      (EventsResult.ok (outs.filterMap id) monday sunday week_offset, st2)
    else (EventsResult.err "malformed event", st2)

/-- `CalendarAPI.delete_event` (lines 122-131). A missing id makes the remote
call raise (HTTP 404), which the `except` clause reports. -/
def delete_event (connected : Bool) (st : RemoteState) (event_id : String) :
    OpResult × RemoteState :=
  if !connected then (OpResult.err "Not connected", st)
  else
    let st2 := { st with calls := st.calls ++ [RemoteCall.deleteCall event_id] }
    match st.store.lookup event_id with
    | some _ => (OpResult.ok, { st2 with store := st2.store.filter fun p => p.1 != event_id })
    | none => (OpResult.err "Not Found", st2)

/-- `new_start_iso.replace('Z', '')` (line 143): remove every `Z`. -/
def stripZ (s : String) : String :=
  String.mk (s.toList.filter fun c => c != 'Z')

/-- `CalendarAPI.move_event` (lines 133-160). `pyIso` is the oracle for
`datetime.fromisoformat`; the fetched resource gets exactly its `start` and
`end` keys replaced and is written back via `events().update`. -/
def move_event (connected : Bool) (pyIso : String → Option PyDateTime)
    (st : RemoteState) (event_id new_start_iso : String) (duration_minutes : Int) :
    OpResult × RemoteState :=
  if !connected then (OpResult.err "Not connected", st)
  else
    let st1 := { st with calls := st.calls ++ [RemoteCall.getCall event_id] }
    match st.store.lookup event_id with
    | none => (OpResult.err "Not Found", st1)
    | some ev =>
      match pyIso (stripZ new_start_iso) with
      | none => (OpResult.err "Invalid isoformat string", st1)
      | some new_start =>
        let new_end := addSeconds new_start (duration_minutes * 60)
        let ev1 := dictSet ev "start"
          (JVal.tdict [("dateTime", fmtIso new_start), ("timeZone", "America/Los_Angeles")])
        let ev2 := dictSet ev1 "end"
          (JVal.tdict [("dateTime", fmtIso new_end), ("timeZone", "America/Los_Angeles")])
        (OpResult.ok,
          { store := st.store.map fun p => if p.1 == event_id then (p.1, ev2) else p,
            calls := st1.calls ++ [RemoteCall.updateCall event_id ev2] })

/-- Sample behaviour of `datetime.fromisoformat` on the canonical strings the
drag-and-drop handler produces. -/
def pyIsoFix (s : String) : Option PyDateTime :=
  if s = "2025-01-15T10:00:00" then some ⟨2025, 1, 15, 10, 0, 0⟩ else none

/- ### Shape characterization of the range pattern

These predicates describe exactly which strings the range regex accepts, and
the lemmas below prove that the backtracking matcher accepts a string iff it
decomposes into the pattern's pieces. -/

/-- Shape of the second capture group
`(\d{1,2}(?::\d{2})?\s*(?:am|pm)?)`: one or two digits, an optional
colon-minutes part, inner spaces, and an optional am/pm marker. -/
def ClockShape (clk : List Char) : Prop :=
  ∃ ds ms sp ap, clk = ds ++ ms ++ sp ++ ap ∧
    ((∃ d1, ds = [d1] ∧ d1.isDigit = true) ∨
      (∃ d1 d2, ds = [d1, d2] ∧ d1.isDigit = true ∧ d2.isDigit = true)) ∧
    (ms = [] ∨ ∃ d1 d2, ms = [':', d1, d2] ∧ d1.isDigit = true ∧ d2.isDigit = true) ∧
    (∀ c ∈ sp, isPySpace c = true) ∧
    (ap = [] ∨ ∃ c1 c2, ap = [c1, c2] ∧
      (c1.toLower = 'a' ∨ c1.toLower = 'p') ∧ c2.toLower = 'm')

/-- Decomposition of a suffix at which the whole pattern matches: a nonempty
newline-free start expression, optional spaces, one or more separator-class
characters, optional spaces, a clock, and trailing spaces. -/
def AtShape (cs : List Char) : Prop :=
  ∃ g1 sp1 sep sp2 clk tl, cs = g1 ++ sp1 ++ sep ++ sp2 ++ clk ++ tl ∧
    g1 ≠ [] ∧ (∀ c ∈ g1, c ≠ '\n') ∧
    (∀ c ∈ sp1, isPySpace c = true) ∧
    sep ≠ [] ∧ (∀ c ∈ sep, isSepChar c = true) ∧
    (∀ c ∈ sp2, isPySpace c = true) ∧
    ClockShape clk ∧ (∀ c ∈ tl, isPySpace c = true)

/-- Full decomposition for `re.search`: an arbitrary skipped prefix followed
by a match. -/
def RangeShape (cs : List Char) : Prop :=
  ∃ pre g1 sp1 sep sp2 clk tl,
    cs = pre ++ g1 ++ sp1 ++ sep ++ sp2 ++ clk ++ tl ∧
    g1 ≠ [] ∧ (∀ c ∈ g1, c ≠ '\n') ∧
    (∀ c ∈ sp1, isPySpace c = true) ∧
    sep ≠ [] ∧ (∀ c ∈ sep, isSepChar c = true) ∧
    (∀ c ∈ sp2, isPySpace c = true) ∧
    ClockShape clk ∧ (∀ c ∈ tl, isPySpace c = true)

/-- `starSplits` enumerates exactly the splits whose consumed part satisfies
the character predicate. -/
theorem starSplits_mem (p : Char → Bool) (cs : List Char) : ∀ a b : List Char,
    (a, b) ∈ starSplits p cs ↔ (cs = a ++ b ∧ ∀ c ∈ a, p c = true) := by
  induction cs with
  | nil =>
    intro a b
    constructor
    · intro h
      simp only [starSplits, List.mem_singleton, Prod.mk.injEq] at h
      obtain ⟨rfl, rfl⟩ := h
      simp
    · rintro ⟨h, _⟩
      cases a with
      | nil => simp at h; simp [starSplits, h]
      | cons x xs => simp at h
  | cons c rest ih =>
    intro a b
    by_cases hc : p c = true
    · constructor
      · intro h
        simp only [starSplits, hc, if_true, List.mem_append, List.mem_map,
          List.mem_singleton] at h
        rcases h with ⟨⟨a1, b1⟩, hmem, heq⟩ | heq
        · obtain ⟨h1, h2⟩ := Prod.mk.injEq .. |>.mp heq
          subst h1; subst h2
          obtain ⟨he, hall⟩ := (ih a1 b1).mp hmem
          refine ⟨by rw [he]; rfl, ?_⟩
          intro x hx
          rcases List.mem_cons.mp hx with rfl | hx2
          · exact hc
          · exact hall x hx2
        · obtain ⟨h1, h2⟩ := Prod.mk.injEq .. |>.mp heq
          subst h1; subst h2
          exact ⟨rfl, by intro x hx; simp at hx⟩
      · rintro ⟨he, hall⟩
        cases a with
        | nil =>
          simp at he
          simp only [starSplits, hc, if_true, List.mem_append, List.mem_singleton]
          exact Or.inr (by rw [he])
        | cons x a2 =>
          injection he with hx hrest
          subst hx
          simp only [starSplits, hc, if_true, List.mem_append, List.mem_map]
          refine Or.inl ⟨(a2, b), (ih a2 b).mpr ⟨hrest, ?_⟩, rfl⟩
          intro y hy
          exact hall y (List.mem_cons_of_mem _ hy)
    · constructor
      · intro h
        simp only [starSplits, hc, Bool.false_eq_true, if_false, List.mem_singleton] at h
        have h1 : a = [] := congrArg Prod.fst h
        have h2 : b = c :: rest := congrArg Prod.snd h
        subst h1; subst h2
        exact ⟨rfl, by intro x hx; simp at hx⟩
      · rintro ⟨he, hall⟩
        cases a with
        | nil =>
          simp at he
          simp [starSplits, hc, he]
        | cons x a2 =>
          injection he with hx hrest
          subst hx
          exact absurd (hall c (List.mem_cons_self c a2)) hc

/-- `plusSplits` enumerates exactly the splits with a nonempty consumed part
satisfying the character predicate. -/
theorem plusSplits_mem (p : Char → Bool) (cs a b : List Char) :
    (a, b) ∈ plusSplits p cs ↔
      (cs = a ++ b ∧ a ≠ [] ∧ ∀ c ∈ a, p c = true) := by
  cases cs with
  | nil =>
    constructor
    · intro h; simp [plusSplits] at h
    · rintro ⟨he, hne, _⟩
      cases a with
      | nil => exact absurd rfl hne
      | cons x xs => simp at he
  | cons c rest =>
    by_cases hc : p c = true
    · constructor
      · intro h
        simp only [plusSplits, hc, if_true, List.mem_map] at h
        obtain ⟨⟨a1, b1⟩, hmem, heq⟩ := h
        obtain ⟨h1, h2⟩ := Prod.mk.injEq .. |>.mp heq
        subst h1; subst h2
        obtain ⟨he, hall⟩ := (starSplits_mem p rest a1 b1).mp hmem
        refine ⟨by rw [he]; rfl, by simp, ?_⟩
        intro x hx
        rcases List.mem_cons.mp hx with rfl | hx2
        · exact hc
        · exact hall x hx2
      · rintro ⟨he, hne, hall⟩
        cases a with
        | nil => exact absurd rfl hne
        | cons x a2 =>
          injection he with hx hrest
          subst hx
          simp only [plusSplits, hc, if_true, List.mem_map]
          refine ⟨(a2, b), (starSplits_mem p rest a2 b).mpr ⟨hrest, ?_⟩, rfl⟩
          intro y hy
          exact hall y (List.mem_cons_of_mem _ hy)
    · constructor
      · intro h
        simp [plusSplits, hc] at h
      · rintro ⟨he, hne, hall⟩
        cases a with
        | nil => exact absurd rfl hne
        | cons x a2 =>
          injection he with hx hrest
          subst hx
          exact absurd (hall c (List.mem_cons_self c a2)) hc

/-- `dotSplits` enumerates exactly the splits with a nonempty newline-free
consumed part. -/
theorem dotSplits_mem (cs : List Char) : ∀ a b : List Char,
    (a, b) ∈ dotSplits cs ↔
      (cs = a ++ b ∧ a ≠ [] ∧ ∀ c ∈ a, c ≠ '\n') := by
  induction cs with
  | nil =>
    intro a b
    constructor
    · intro h; simp [dotSplits] at h
    · rintro ⟨he, hne, _⟩
      cases a with
      | nil => exact absurd rfl hne
      | cons x xs => simp at he
  | cons c rest ih =>
    intro a b
    by_cases hc : c = '\n'
    · subst hc
      constructor
      · intro h
        simp [dotSplits] at h
      · rintro ⟨he, hne, hall⟩
        cases a with
        | nil => exact absurd rfl hne
        | cons x a2 =>
          injection he with hx _
          exact absurd hx.symm (hall x (List.mem_cons_self x a2))
    · have hcb : (c == '\n') = false := beq_eq_false_iff_ne.mpr hc
      constructor
      · intro h
        simp only [dotSplits, hcb, Bool.false_eq_true, if_false, List.mem_cons,
          List.mem_map, Prod.mk.injEq] at h
        rcases h with ⟨h1, h2⟩ | ⟨⟨a1, b1⟩, hmem, h1, h2⟩
        · subst h1; subst h2
          exact ⟨rfl, by simp, by intro x hx; simp at hx; subst hx; exact hc⟩
        · subst h1; subst h2
          obtain ⟨he, _, hall⟩ := (ih a1 b1).mp hmem
          refine ⟨by rw [he]; rfl, by simp, ?_⟩
          intro x hx
          rcases List.mem_cons.mp hx with rfl | hx2
          · exact hc
          · exact hall x hx2
      · rintro ⟨he, hne, hall⟩
        cases a with
        | nil => exact absurd rfl hne
        | cons x a2 =>
          injection he with hx hrest
          subst hx
          simp only [dotSplits, hcb, Bool.false_eq_true, if_false, List.mem_cons,
            List.mem_map, Prod.mk.injEq]
          cases a2 with
          | nil =>
            simp at hrest
            exact Or.inl ⟨rfl, hrest.symm⟩
          | cons y a3 =>
            refine Or.inr ⟨(y :: a3, b), (ih (y :: a3) b).mpr ⟨hrest, by simp, ?_⟩, rfl, rfl⟩
            intro z hz
            exact hall z (List.mem_cons_of_mem _ hz)

/-- `digitSplits` enumerates exactly the one- and two-digit prefixes. -/
theorem digitSplits_mem (cs a b : List Char) :
    (a, b) ∈ digitSplits cs ↔
      (cs = a ++ b ∧
        ((∃ d1, a = [d1] ∧ d1.isDigit = true) ∨
          (∃ d1 d2, a = [d1, d2] ∧ d1.isDigit = true ∧ d2.isDigit = true))) := by
  cases cs with
  | nil =>
    constructor
    · intro h; simp [digitSplits] at h
    · rintro ⟨he, ⟨d1, rfl, _⟩ | ⟨d1, d2, rfl, _⟩⟩ <;> simp at he
  | cons x rest =>
    cases rest with
    | nil =>
      constructor
      · intro h
        by_cases hd : x.isDigit = true
        · simp only [digitSplits, hd, if_true, List.mem_singleton, Prod.mk.injEq] at h
          obtain ⟨rfl, rfl⟩ := h
          exact ⟨rfl, Or.inl ⟨x, rfl, hd⟩⟩
        · simp [digitSplits, hd] at h
      · rintro ⟨he, ⟨d1, rfl, hd1⟩ | ⟨d1, d2, rfl, hd1, hd2⟩⟩
        · injection he with h1 h2
          subst h1
          simp at h2
          simp [digitSplits, hd1, h2]
        · injection he with h1 h2
          simp at h2
      | cons y rest2 =>
        constructor
        · intro h
          simp only [digitSplits, List.mem_append] at h
          rcases h with h | h
          · by_cases hd : x.isDigit = true ∧ y.isDigit = true
            · simp only [hd.1, hd.2, Bool.and_self, if_true, List.mem_singleton,
                Prod.mk.injEq] at h
              obtain ⟨rfl, rfl⟩ := h
              exact ⟨rfl, Or.inr ⟨x, y, rfl, hd.1, hd.2⟩⟩
            · have : (x.isDigit && y.isDigit) = false := by
                cases hx : x.isDigit <;> cases hy : y.isDigit <;> simp_all
              simp [this] at h
          · by_cases hd : x.isDigit = true
            · simp only [hd, if_true, List.mem_singleton, Prod.mk.injEq] at h
              obtain ⟨rfl, rfl⟩ := h
              exact ⟨rfl, Or.inl ⟨x, rfl, hd⟩⟩
            · simp [hd] at h
        · rintro ⟨he, ⟨d1, rfl, hd1⟩ | ⟨d1, d2, rfl, hd1, hd2⟩⟩
          · injection he with h1 h2
            subst h1
            subst h2
            refine List.mem_append_right _ ?_
            rw [if_pos hd1]
            exact List.mem_singleton.mpr rfl
          · injection he with h1 h2
            injection h2 with h3 h4
            subst h1; subst h3; subst h4
            refine List.mem_append_left _ ?_
            rw [if_pos (by simp [hd1, hd2])]
            exact List.mem_singleton.mpr rfl

/-- `minuteSplits` enumerates the optional `:MM` prefix and the empty
split. -/
theorem minuteSplits_mem (cs a b : List Char) :
    (a, b) ∈ minuteSplits cs ↔
      (cs = a ++ b ∧
        (a = [] ∨ ∃ d1 d2, a = [':', d1, d2] ∧ d1.isDigit = true ∧ d2.isDigit = true)) := by
  cases cs with
  | nil =>
    constructor
    · intro h
      simp only [minuteSplits, List.mem_singleton, Prod.mk.injEq] at h
      obtain ⟨rfl, rfl⟩ := h
      exact ⟨rfl, Or.inl rfl⟩
    · rintro ⟨he, rfl | ⟨d1, d2, rfl, _, _⟩⟩
      · simp at he
        simp [minuteSplits, he]
      · simp at he
  | cons x rest =>
    cases rest with
    | nil =>
      constructor
      · intro h
        simp only [minuteSplits, List.mem_singleton, Prod.mk.injEq] at h
        obtain ⟨rfl, rfl⟩ := h
        exact ⟨rfl, Or.inl rfl⟩
      · rintro ⟨he, rfl | ⟨d1, d2, rfl, _, _⟩⟩
        · simp at he
          simp [minuteSplits, he]
        · simp at he
    | cons y rest2 =>
      cases rest2 with
      | nil =>
        constructor
        · intro h
          simp only [minuteSplits, List.mem_singleton, Prod.mk.injEq] at h
          obtain ⟨rfl, rfl⟩ := h
          exact ⟨rfl, Or.inl rfl⟩
        · rintro ⟨he, rfl | ⟨d1, d2, rfl, _, _⟩⟩
          · simp at he
            simp [minuteSplits, he]
          · simp at he
      | cons z rest3 =>
        constructor
        · intro h
          simp only [minuteSplits, List.mem_append, List.mem_singleton] at h
          rcases h with h | h
          · by_cases hcond : x = ':' ∧ y.isDigit = true ∧ z.isDigit = true
            · obtain ⟨rfl, hy, hz⟩ := hcond
              simp only [beq_self_eq_true, hy, hz, Bool.and_self, Bool.true_and,
                if_true, List.mem_singleton, Prod.mk.injEq] at h
              obtain ⟨rfl, rfl⟩ := h
              exact ⟨rfl, Or.inr ⟨y, z, rfl, hy, hz⟩⟩
            · have : (x == ':' && y.isDigit && z.isDigit) = false := by
                by_cases hx : x = ':'
                · subst hx
                  cases hy : y.isDigit <;> cases hz : z.isDigit <;> simp_all
                · simp [beq_eq_false_iff_ne.mpr hx]
              simp [this] at h
          · simp only [Prod.mk.injEq] at h
            obtain ⟨rfl, rfl⟩ := h
            exact ⟨rfl, Or.inl rfl⟩
        · rintro ⟨he, rfl | ⟨d1, d2, rfl, hd1, hd2⟩⟩
          · simp at he
            simp [minuteSplits, he]
          · injection he with h1 h2
            injection h2 with h3 h4
            injection h4 with h5 h6
            subst h1; subst h3; subst h5; subst h6
            refine List.mem_append_left _ ?_
            rw [if_pos (by simp [hd1, hd2])]
            exact List.mem_singleton.mpr rfl

/-- `ampmSplits` enumerates the optional case-insensitive am/pm prefix and
the empty split. -/
theorem ampmSplits_mem (cs a b : List Char) :
    (a, b) ∈ ampmSplits cs ↔
      (cs = a ++ b ∧
        (a = [] ∨ ∃ c1 c2, a = [c1, c2] ∧
          (c1.toLower = 'a' ∨ c1.toLower = 'p') ∧ c2.toLower = 'm')) := by
  cases cs with
  | nil =>
    constructor
    · intro h
      simp only [ampmSplits, List.mem_singleton, Prod.mk.injEq] at h
      obtain ⟨rfl, rfl⟩ := h
      exact ⟨rfl, Or.inl rfl⟩
    · rintro ⟨he, rfl | ⟨c1, c2, rfl, _, _⟩⟩
      · simp at he
        simp [ampmSplits, he]
      · simp at he
  | cons x rest =>
    cases rest with
    | nil =>
      constructor
      · intro h
        simp only [ampmSplits, List.mem_singleton, Prod.mk.injEq] at h
        obtain ⟨rfl, rfl⟩ := h
        exact ⟨rfl, Or.inl rfl⟩
      · rintro ⟨he, rfl | ⟨c1, c2, rfl, _, _⟩⟩
        · simp at he
          simp [ampmSplits, he]
        · simp at he
    | cons y rest2 =>
      constructor
      · intro h
        simp only [ampmSplits, List.mem_append, List.mem_singleton] at h
        rcases h with h | h
        · by_cases hcond : (x.toLower = 'a' ∨ x.toLower = 'p') ∧ y.toLower = 'm'
          · have hb : ((x.toLower == 'a' || x.toLower == 'p') && (y.toLower == 'm')) = true := by
              rcases hcond.1 with hx | hx <;> simp [hx, hcond.2]
            simp only [hb, if_true, List.mem_singleton, Prod.mk.injEq] at h
            obtain ⟨rfl, rfl⟩ := h
            exact ⟨rfl, Or.inr ⟨x, y, rfl, hcond.1, hcond.2⟩⟩
          · have hb : ((x.toLower == 'a' || x.toLower == 'p') && (y.toLower == 'm')) = false := by
              by_cases hy : y.toLower = 'm'
              · have hx : ¬ (x.toLower = 'a' ∨ x.toLower = 'p') := fun hh => hcond ⟨hh, hy⟩
                push_neg at hx
                simp [beq_eq_false_iff_ne.mpr hx.1, beq_eq_false_iff_ne.mpr hx.2]
              · simp [beq_eq_false_iff_ne.mpr hy]
            simp [hb] at h
        · simp only [Prod.mk.injEq] at h
          obtain ⟨rfl, rfl⟩ := h
          exact ⟨rfl, Or.inl rfl⟩
      · rintro ⟨he, rfl | ⟨c1, c2, rfl, hc1, hc2⟩⟩
        · simp at he
          simp [ampmSplits, he]
        · injection he with h1 h2
          injection h2 with h3 h4
          subst h1; subst h3; subst h4
          have hb : ((x.toLower == 'a' || x.toLower == 'p') && (y.toLower == 'm')) = true := by
            rcases hc1 with hx | hx <;> simp [hx, hc2]
          refine List.mem_append_left _ ?_
          rw [if_pos hb]
          exact List.mem_singleton.mpr rfl

/-- `clockSplits` enumerates exactly the clock-shaped prefixes. -/
theorem clockSplits_mem (cs g r : List Char) :
    (g, r) ∈ clockSplits cs ↔ (cs = g ++ r ∧ ClockShape g) := by
  constructor
  · intro h
    simp only [clockSplits, List.mem_flatMap, List.mem_map] at h
    obtain ⟨⟨d1, r1⟩, hd, ⟨m1, r2⟩, hm, ⟨s1, r3⟩, hs, ⟨a1, r4⟩, ha, heq⟩ := h
    obtain ⟨h1, h2⟩ := Prod.mk.injEq .. |>.mp heq
    subst h1; subst h2
    obtain ⟨eD, pD⟩ := (digitSplits_mem cs d1 r1).mp hd
    obtain ⟨eM, pM⟩ := (minuteSplits_mem r1 m1 r2).mp hm
    obtain ⟨eS, pS⟩ := (starSplits_mem isPySpace r2 s1 r3).mp hs
    obtain ⟨eA, pA⟩ := (ampmSplits_mem r3 a1 r4).mp ha
    constructor
    · rw [eD, eM, eS, eA]
      simp [List.append_assoc]
    · exact ⟨d1, m1, s1, a1, rfl, pD, pM, pS, pA⟩
  · rintro ⟨rfl, ds, ms, sp, ap, rfl, hds, hms, hsp, hap⟩
    simp only [clockSplits, List.mem_flatMap, List.mem_map]
    refine ⟨(ds, ms ++ sp ++ ap ++ r),
      (digitSplits_mem _ _ _).mpr ⟨by simp [List.append_assoc], hds⟩,
      (ms, sp ++ ap ++ r),
      (minuteSplits_mem _ _ _).mpr ⟨by simp [List.append_assoc], hms⟩,
      (sp, ap ++ r),
      (starSplits_mem isPySpace _ _ _).mpr ⟨by simp [List.append_assoc], hsp⟩,
      (ap, r),
      (ampmSplits_mem _ _ _).mpr ⟨rfl, hap⟩, rfl⟩

/-- `matchAfterG1` succeeds exactly on the suffixes that decompose as
spaces, separators, spaces, a clock, and trailing spaces. -/
theorem matchAfterG1_isSome (cs : List Char) :
    ((matchAfterG1 cs).isSome = true) ↔
      ∃ sp1 sep sp2 clk tl, cs = sp1 ++ sep ++ sp2 ++ clk ++ tl ∧
        (∀ c ∈ sp1, isPySpace c = true) ∧
        sep ≠ [] ∧ (∀ c ∈ sep, isSepChar c = true) ∧
        (∀ c ∈ sp2, isPySpace c = true) ∧
        ClockShape clk ∧ (∀ c ∈ tl, isPySpace c = true) := by
  unfold matchAfterG1
  rw [List.findSome?_isSome_iff]
  constructor
  · rintro ⟨⟨a1, b1⟩, hs1, h1⟩
    rw [List.findSome?_isSome_iff] at h1
    obtain ⟨⟨a2, b2⟩, hsp, h2⟩ := h1
    rw [List.findSome?_isSome_iff] at h2
    obtain ⟨⟨a3, b3⟩, hs2, h3⟩ := h2
    rw [List.findSome?_isSome_iff] at h3
    obtain ⟨⟨a4, b4⟩, hg2, h4⟩ := h3
    have htl : b4.all isPySpace = true := by
      by_cases hb : b4.all isPySpace = true
      · exact hb
      · rw [if_neg hb] at h4
        simp at h4
    obtain ⟨e1, p1⟩ := (starSplits_mem isPySpace cs a1 b1).mp hs1
    obtain ⟨e2, p2, p3⟩ := (plusSplits_mem isSepChar b1 a2 b2).mp hsp
    obtain ⟨e3, p4⟩ := (starSplits_mem isPySpace b2 a3 b3).mp hs2
    obtain ⟨e4, p5⟩ := (clockSplits_mem b3 a4 b4).mp hg2
    refine ⟨a1, a2, a3, a4, b4, ?_, p1, p2, p3, p4, p5, ?_⟩
    · rw [e1, e2, e3, e4]
      simp [List.append_assoc]
    · exact fun c hc => List.all_eq_true.mp htl c hc
  · rintro ⟨sp1, sep, sp2, clk, tl, rfl, h1, h2, h3, h4, h5, h6⟩
    refine ⟨(sp1, sep ++ sp2 ++ clk ++ tl),
      (starSplits_mem isPySpace _ _ _).mpr ⟨by simp [List.append_assoc], h1⟩, ?_⟩
    rw [List.findSome?_isSome_iff]
    refine ⟨(sep, sp2 ++ clk ++ tl),
      (plusSplits_mem isSepChar _ _ _).mpr ⟨by simp [List.append_assoc], h2, h3⟩, ?_⟩
    rw [List.findSome?_isSome_iff]
    refine ⟨(sp2, clk ++ tl),
      (starSplits_mem isPySpace _ _ _).mpr ⟨by simp [List.append_assoc], h4⟩, ?_⟩
    rw [List.findSome?_isSome_iff]
    refine ⟨(clk, tl), (clockSplits_mem _ _ _).mpr ⟨rfl, h5⟩, ?_⟩
    rw [if_pos (List.all_eq_true.mpr h6)]
    rfl

/-- `matchAt` succeeds exactly on the suffixes of shape `AtShape`. -/
theorem matchAt_isSome (pre cs : List Char) :
    ((matchAt pre cs).isSome = true) ↔ AtShape cs := by
  unfold matchAt
  rw [List.findSome?_isSome_iff]
  constructor
  · rintro ⟨⟨a0, b0⟩, hg1, hrest⟩
    obtain ⟨e0, q1, q2⟩ := (dotSplits_mem cs a0 b0).mp hg1
    have hafter : (matchAfterG1 b0).isSome = true := by
      cases hm : matchAfterG1 b0 with
      | none => rw [hm] at hrest; simp at hrest
      | some x => rfl
    obtain ⟨sp1, sep, sp2, clk, tl, heq, h1, h2, h3, h4, h5, h6⟩ :=
      (matchAfterG1_isSome b0).mp hafter
    refine ⟨a0, sp1, sep, sp2, clk, tl, ?_, q1, q2, h1, h2, h3, h4, h5, h6⟩
    rw [e0, heq]
    simp [List.append_assoc]
  · rintro ⟨g1, sp1, sep, sp2, clk, tl, rfl, hg1ne, hg1nl, h1, h2, h3, h4, h5, h6⟩
    refine ⟨(g1, sp1 ++ sep ++ sp2 ++ clk ++ tl),
      (dotSplits_mem _ _ _).mpr ⟨by simp [List.append_assoc], hg1ne, hg1nl⟩, ?_⟩
    have hafter : (matchAfterG1 (sp1 ++ sep ++ sp2 ++ clk ++ tl)).isSome = true :=
      (matchAfterG1_isSome _).mpr ⟨sp1, sep, sp2, clk, tl, rfl, h1, h2, h3, h4, h5, h6⟩
    cases hm : matchAfterG1 (sp1 ++ sep ++ sp2 ++ clk ++ tl) with
    | none => rw [hm] at hafter; simp at hafter
    | some x => simp [hm]

/-- The empty string admits no match. -/
theorem atShape_nil_false : ¬ AtShape [] := by
  rintro ⟨g1, sp1, sep, sp2, clk, tl, heq, hne, _⟩
  have hlen := congrArg List.length heq
  simp only [List.length_nil, List.length_append] at hlen
  cases g1 with
  | nil => exact hne rfl
  | cons x xs => simp at hlen; omega

/-- `reSearchAux` succeeds exactly when some suffix of the remaining input
has shape `AtShape` (the skipped prefix is arbitrary). -/
theorem reSearchAux_isSome (cs : List Char) : ∀ pre : List Char,
    ((reSearchAux pre cs).isSome = true) ↔
      ∃ p2 rest, cs = p2 ++ rest ∧ AtShape rest := by
  induction cs with
  | nil =>
    intro pre
    constructor
    · intro h
      simp [reSearchAux] at h
    · rintro ⟨p2, rest, heq, hshape⟩
      obtain ⟨rfl, rfl⟩ := List.append_eq_nil.mp heq.symm
      exact absurd hshape atShape_nil_false
  | cons c rest ih =>
    intro pre
    constructor
    · intro h
      unfold reSearchAux at h
      cases hm : matchAt pre (c :: rest) with
      | some m =>
        exact ⟨[], c :: rest, rfl,
          (matchAt_isSome pre (c :: rest)).mp (by rw [hm]; rfl)⟩
      | none =>
        rw [hm] at h
        obtain ⟨p2, r2, heq, hshape⟩ := (ih (pre ++ [c])).mp h
        exact ⟨c :: p2, r2, by rw [heq]; rfl, hshape⟩
    · rintro ⟨p2, r2, heq, hshape⟩
      unfold reSearchAux
      cases p2 with
      | nil =>
        simp only [List.nil_append] at heq
        subst heq
        have hsome := (matchAt_isSome pre (c :: rest)).mpr hshape
        cases hm : matchAt pre (c :: rest) with
        | none => rw [hm] at hsome; simp at hsome
        | some m => rfl
      | cons x p2b =>
        injection heq with h1 h2
        subst h1
        have hrec := (ih (pre ++ [c])).mpr ⟨p2b, r2, h2, hshape⟩
        cases hm : matchAt pre (c :: rest) with
        | none => exact hrec
        | some m => rfl

/-- `d[k] = v` then `d[k]` gives `v`. -/
theorem lookup_dictSet_self (d : GDict) (k : String) (v : JVal) :
    (dictSet d k v).lookup k = some v := by
  induction d with
  | nil => simp [dictSet, List.lookup_cons]
  | cons p tl ih =>
    obtain ⟨k1, v1⟩ := p
    by_cases hk : k1 = k
    · subst hk
      simp [dictSet, List.lookup_cons]
    · have h1 : (k1 == k) = false := beq_eq_false_iff_ne.mpr hk
      have h2 : (k == k1) = false := beq_eq_false_iff_ne.mpr fun hh => hk hh.symm
      simp [dictSet, h1, List.lookup_cons, h2, ih]

/-- `d[k] = v` leaves every other key's value unchanged. -/
theorem lookup_dictSet_ne (d : GDict) (k k2 : String) (v : JVal) (h : k2 ≠ k) :
    (dictSet d k v).lookup k2 = d.lookup k2 := by
  induction d with
  | nil =>
    have h2 : (k2 == k) = false := beq_eq_false_iff_ne.mpr h
    simp [dictSet, List.lookup_cons, h2]
  | cons p tl ih =>
    obtain ⟨k1, v1⟩ := p
    by_cases hk : k1 = k
    · subst hk
      have h2 : (k2 == k1) = false := beq_eq_false_iff_ne.mpr h
      simp [dictSet, List.lookup_cons, h2]
    · have h1 : (k1 == k) = false := beq_eq_false_iff_ne.mpr hk
      cases hb : (k2 == k1) <;> simp [dictSet, h1, List.lookup_cons, hb, ih]

/- ### Claim theorems -/

/-- C3 counterexample: the input `"9am oo 11"` IS detected as a range, with
separator text `"oo"`, which is none of hyphen, en-dash, or the word `"to"` —
because `[-–to]+` in the pattern is a character class, not an alternation of
those three tokens. -/
theorem range_separator_beyond_tokens :
    rangeDetected "9am oo 11" = true ∧
    (reSearchDetail "9am oo 11").map RMatch.sep = some ['o', 'o'] ∧
    ¬ (['o', 'o'] = ['-'] ∨ ['o', 'o'] = ['–'] ∨
        (['o', 'o'].map Char.toLower) = ['t', 'o']) := by
  exact ⟨by decide, by decide, by decide⟩

/-- C3 (corrected): a range is detected exactly when the input has the shape
`<prefix><start-expr><spaces><separator><spaces><end-clock><trailing spaces>`,
where the start expression is nonempty and newline-free, the end clock is one
or two digits with optional `:MM` and optional (case-insensitive) am/pm, and
the separator is any nonempty run of characters from the class
`{'-', '–', 't', 'o', 'T', 'O'}` — so hyphen, en-dash and the word "to" all
work, but so do other strings over that class, such as `"oo"` or a bare
`"t"`. -/
theorem range_detection_characterization (s : String) :
    rangeDetected s = true ↔ RangeShape s.toList := by
  have hbase : (reSearchAux [] s.toList).isSome = true ↔
      ∃ p2 rest, s.toList = p2 ++ rest ∧ AtShape rest := reSearchAux_isSome s.toList []
  constructor
  · intro h
    obtain ⟨p2, rest, heq, g1, sp1, sep, sp2, clk, tl, heq2, hx⟩ := hbase.mp h
    exact ⟨p2, g1, sp1, sep, sp2, clk, tl,
      by rw [heq, heq2]; simp [List.append_assoc], hx⟩
  · rintro ⟨pre, g1, sp1, sep, sp2, clk, tl, heq, hx⟩
    refine hbase.mpr ⟨pre, g1 ++ sp1 ++ sep ++ sp2 ++ clk ++ tl,
      by rw [heq]; simp [List.append_assoc],
      g1, sp1, sep, sp2, clk, tl, rfl, hx⟩

/-- C2 (code bug): on the range input `"9pm to 5"` — with `dateparser`
resolving `"9pm"` to 2025-01-15 21:00:00 and `"2025-01-15 5pm"` to 17:00:00 —
the resolved end is not strictly after the start, and instead of adding 12
hours once (or falling back to a single-timestamp parse), line 203's
`end_parsed.replace(hour=end_parsed.hour + 12)` asks for hour 29 and raises an
uncaught `ValueError`. -/
theorem range_wrap_value_error :
    parse_time dpFix "9pm to 5" = ParseResult.valueError := by
  decide

/-- C5 (confirmed): for every detected range input whose end clock (after
stripping) carries no am/pm marker, when the start expression parses, the end
clock is re-parsed on the start's calendar date with the start's period
appended (`inferredEnd`: hour before noon → `am`, at/after noon → `pm`), and —
in the non-wrapping case, i.e. when the resolved end is strictly after the
start — the result is success with duration `end − start` in minutes. -/
theorem range_ampm_inference (dp : String → Option PyDateTime) (input : String)
    (m : RMatch) (s e : PyDateTime)
    (h1 : reSearchDetail input = some m)
    (h2 : dp (pyStrip (String.mk m.g1)) = some s)
    (h3 : hasAmPm (pyStrip (String.mk m.g2)) = false)
    (h4 : dp (fmtDate s ++ " " ++ inferredEnd (pyStrip (String.mk m.g2)) s) = some e)
    (h5 : pyLe e s = false) :
    parse_time dp input =
      ParseResult.ok (fmtLong s) s (some (Int.tdiv (toEpochSec e - toEpochSec s) 60)) := by
  simp [parse_time, h1, h2, h3, h4, h5]

/-- Witness for C5: `parse_time("9am - 11")` succeeds with duration 120
minutes, the end clock having been completed to `"2025-01-16 11am"`. -/
theorem range_ampm_inference_witness :
    parse_time dpFix "9am - 11" =
      ParseResult.ok "Thursday, January 16 at 09:00 AM" ⟨2025, 1, 16, 9, 0, 0⟩ (some 120) := by
  have h := range_ampm_inference dpFix "9am - 11"
    ⟨[], ['9', 'a', 'm'], [' '], ['-'], [' '], ['1', '1'], []⟩
    ⟨2025, 1, 16, 9, 0, 0⟩ ⟨2025, 1, 16, 11, 0, 0⟩
    (by decide) (by decide) (by decide) (by decide) (by decide)
  exact h.trans (by decide)

/-- C8 (confirmed): when no range is detected and the fallback
single-timestamp parse yields nothing, `parse_time` returns the bare failure
result `{"success": False, "message": "Could not parse time"}` — the
`ParseResult.failure` constructor carries no rendering, timestamp or
duration. -/
theorem parse_failure_no_partial (dp : String → Option PyDateTime) (input : String)
    (h1 : reSearchDetail input = none) (h2 : dp input = none) :
    parse_time dp input = ParseResult.failure "Could not parse time" := by
  simp [parse_time, h1, h2]

/-- Witness for C8: `parse_time("not a time")` is a `ParseFailure`. -/
theorem parse_failure_no_partial_witness :
    parse_time dpFix "not a time" = ParseResult.failure "Could not parse time" :=
  parse_failure_no_partial dpFix "not a time" (by decide) (by decide)

/-- C9 (confirmed): with no calendar service connected, `get_events`,
`delete_event` and `move_event` all return a failure result carrying the
message "Not connected", issue no remote request (the call log is untouched)
and leave the remote state exactly as it was. -/
theorem gateway_not_connected_short_circuit (now : PyDateTime) (st : RemoteState)
    (week_offset : Int) (pyIso : String → Option PyDateTime) (eid iso : String)
    (dur : Int) :
    get_events false now st week_offset = (EventsResult.err "Not connected", st) ∧
    delete_event false st eid = (OpResult.err "Not connected", st) ∧
    move_event false pyIso st eid iso dur = (OpResult.err "Not connected", st) :=
  ⟨rfl, rfl, rfl⟩

/-- C6 (confirmed): once the submitted time parses, `add_task` invokes the
Things mirror and the calendar insert exactly once each, no matter how either
turns out; the result reports each side separately (`things` is the Things
outcome, `calendar` is the insert outcome and is `false` when offline), the
overall `success` flag is their conjunction, and the JavaScript `addTask`
clears the draft exactly on overall success, retaining it otherwise. -/
theorem add_task_both_attempted (startTime? : Option PyDateTime) (t : PyDateTime)
    (thingsOutcome connected calOutcome : Bool) (w : MirrorWorld) (d : DraftState)
    (h : startTime? = some t) :
    ((add_task startTime? thingsOutcome connected calOutcome w).2.thingsAttempts
        = w.thingsAttempts + 1) ∧
    ((add_task startTime? thingsOutcome connected calOutcome w).2.calendarAttempts
        = w.calendarAttempts + 1) ∧
    ((add_task startTime? thingsOutcome connected calOutcome w).1
        = AddTaskResult.settled (thingsOutcome && (connected && calOutcome))
            thingsOutcome (connected && calOutcome)) ∧
    (addTaskUI d (add_task startTime? thingsOutcome connected calOutcome w).1
        = if thingsOutcome && (connected && calOutcome) then clearedDraft else d) := by
  subst h
  cases thingsOutcome <;> cases connected <;> cases calOutcome <;>
    simp [add_task, add_to_things, add_to_calendar, addTaskUI]

/-- A draft mid-composition, for the C6 witness. -/
def sampleDraft : DraftState :=
  ⟨"Write report", "9am - 11", "120", "→ Thursday, January 16 at 09:00 AM",
    some "2025-01-16T09:00:00"⟩

/-- Witness for C6: a submission where Things succeeds and the calendar insert
fails still attempts both, reports `things := true, calendar := false`,
overall failure, and the draft is retained. -/
theorem add_task_both_attempted_witness :
    ((add_task (some ⟨2025, 1, 16, 9, 0, 0⟩) true true false ⟨0, 0⟩).2.thingsAttempts
        = (MirrorWorld.mk 0 0).thingsAttempts + 1) ∧
    ((add_task (some ⟨2025, 1, 16, 9, 0, 0⟩) true true false ⟨0, 0⟩).2.calendarAttempts
        = (MirrorWorld.mk 0 0).calendarAttempts + 1) ∧
    ((add_task (some ⟨2025, 1, 16, 9, 0, 0⟩) true true false ⟨0, 0⟩).1
        = AddTaskResult.settled (true && (true && false)) true (true && false)) ∧
    (addTaskUI sampleDraft (add_task (some ⟨2025, 1, 16, 9, 0, 0⟩) true true false ⟨0, 0⟩).1
        = if true && (true && false) then clearedDraft else sampleDraft) :=
  add_task_both_attempted (some ⟨2025, 1, 16, 9, 0, 0⟩) ⟨2025, 1, 16, 9, 0, 0⟩
    true true false ⟨0, 0⟩ sampleDraft rfl

/-- C7 (confirmed): `renderCalendar` places an event (timed or all-day) in day
bucket `d` of the displayed week exactly when
`floor((event.start − weekStart) / 86400000) = d`; buckets exist only for
`0 ≤ d ≤ 6`, so an event whose index falls outside that range appears nowhere.
An event starting exactly at the anchor has index 0, and one starting
7×24h after the anchor has index 7 and is excluded from every bucket. -/
theorem week_bucket_partition (evs : List JsEvent) (ws now d : Int) (e : JsEvent)
    (hd0 : 0 ≤ d) (hd7 : d < 7) :
    (((∃ c, Placed.mk e c ∈ eventsByDay evs ws now d) ∨
        (∃ c, Placed.mk e c ∈ allDayByDay evs ws now d)) ↔
      (e ∈ evs ∧ bucketIdx e.start ws = d)) ∧
    bucketIdx ws ws = 0 ∧
    bucketIdx (ws + 7 * 86400000) ws = 7 ∧
    (e.start = ws + 7 * 86400000 →
      ¬ ((∃ c, Placed.mk e c ∈ eventsByDay evs ws now d) ∨
          (∃ c, Placed.mk e c ∈ allDayByDay evs ws now d))) := by
  have hmem : ∀ (l : List JsEvent),
      (∃ c, Placed.mk e c ∈ l.map (decorate now)) ↔ e ∈ l := by
    intro l
    constructor
    · rintro ⟨c, hc⟩
      rw [List.mem_map] at hc
      obtain ⟨a, ha, hda⟩ := hc
      have hae : a = e := congrArg Placed.ev hda
      exact hae ▸ ha
    · intro he
      exact ⟨if e.endTime < now then "event-completed" else "event-normal",
        List.mem_map.mpr ⟨e, he, rfl⟩⟩
  have hiff : ((∃ c, Placed.mk e c ∈ eventsByDay evs ws now d) ∨
      (∃ c, Placed.mk e c ∈ allDayByDay evs ws now d)) ↔
      (e ∈ evs ∧ bucketIdx e.start ws = d) := by
    rw [eventsByDay, allDayByDay, hmem, hmem, List.mem_filter, List.mem_filter]
    simp only [Bool.and_eq_true, beq_iff_eq, Bool.not_eq_true']
    constructor
    · rintro (⟨he, _, hb⟩ | ⟨he, _, hb⟩) <;> exact ⟨he, hb⟩
    · rintro ⟨he, hb⟩
      cases hall : e.isAllDay
      · exact Or.inl ⟨he, rfl, hb⟩
      · exact Or.inr ⟨he, rfl, hb⟩
  have hzero : bucketIdx ws ws = 0 := by
    show Int.fdiv (ws - ws) 86400000 = 0
    rw [sub_self]
    decide
  have hseven : bucketIdx (ws + 7 * 86400000) ws = 7 := by
    show Int.fdiv (ws + 7 * 86400000 - ws) 86400000 = 7
    rw [add_sub_cancel_left]
    decide
  refine ⟨hiff, hzero, hseven, ?_⟩
  intro hstart hcontra
  have hb := (hiff.mp hcontra).2
  rw [hstart] at hb
  rw [hseven] at hb
  omega

/-- A timed event starting exactly 7×24h after the anchor, for the C7
witness. -/
def nextWeekEvent : JsEvent :=
  ⟨"b", "Next Monday", 604800000, 608400000, false⟩

/-- Witness for C7 at the anchor `weekStart = 0`, bucket 0: the event starting
7×24h after the anchor gets index 7 and is excluded. -/
theorem week_bucket_partition_witness :
    (((∃ c, Placed.mk nextWeekEvent c ∈ eventsByDay [nextWeekEvent] 0 0 0) ∨
        (∃ c, Placed.mk nextWeekEvent c ∈ allDayByDay [nextWeekEvent] 0 0 0)) ↔
      (nextWeekEvent ∈ [nextWeekEvent] ∧ bucketIdx nextWeekEvent.start 0 = 0)) ∧
    bucketIdx (0 : Int) 0 = 0 ∧
    bucketIdx ((0 : Int) + 7 * 86400000) 0 = 7 ∧
    (nextWeekEvent.start = (0 : Int) + 7 * 86400000 →
      ¬ ((∃ c, Placed.mk nextWeekEvent c ∈ eventsByDay [nextWeekEvent] 0 0 0) ∨
          (∃ c, Placed.mk nextWeekEvent c ∈ allDayByDay [nextWeekEvent] 0 0 0))) :=
  week_bucket_partition [nextWeekEvent] 0 0 0 nextWeekEvent (by decide) (by decide)

/-- C4 counterexample: an event ending exactly at `now` is rendered with color
class `event-normal`, i.e. it is NOT marked completed, refuting the claim's
headline that the exact-equal boundary is marked completed. -/
def c4Event : JsEvent := ⟨"e", "Meeting", 500, 1000, false⟩

/-- The concrete refutation: with `now = 1000 = c4Event.endTime`, the bucket
entry built by `renderCalendar` carries `event-normal`. -/
theorem completed_flag_equal_end_counterexample :
    eventsByDay [c4Event] 0 1000 0 = [Placed.mk c4Event "event-normal"] ∧
    c4Event.endTime = 1000 ∧
    "event-normal" ≠ "event-completed" := by
  exact ⟨by decide, by decide, by decide⟩

/-- C4 (corrected): the completed flag is the strict comparison
`event.end < now`, so an event whose end is exactly `now` is NOT marked
completed — it gets `event-normal`, and in the sidebar it shows as in-progress
(`▸`) when already started. -/
theorem completed_flag_strict (evs : List JsEvent) (ws now d : Int) (pl : Placed)
    (h : pl ∈ eventsByDay evs ws now d ∨ pl ∈ allDayByDay evs ws now d) :
    (pl.colorClass = "event-completed" ↔ pl.ev.endTime < now) ∧
    (pl.ev.endTime = now → pl.colorClass = "event-normal") ∧
    (pl.ev.endTime = now → pl.ev.start ≤ now → scheduleStatus now pl.ev = "▸") := by
  have hdec : ∃ a, pl = decorate now a := by
    rcases h with h | h
    · simp only [eventsByDay, List.mem_map] at h
      obtain ⟨a, _, hda⟩ := h
      exact ⟨a, hda.symm⟩
    · simp only [allDayByDay, List.mem_map] at h
      obtain ⟨a, _, hda⟩ := h
      exact ⟨a, hda.symm⟩
  obtain ⟨a, rfl⟩ := hdec
  simp only [decorate]
  refine ⟨?_, ?_, ?_⟩
  · constructor
    · intro hc
      by_cases hlt : a.endTime < now
      · exact hlt
      · rw [if_neg hlt] at hc
        exact absurd hc (by decide)
    · intro hlt
      rw [if_pos hlt]
  · intro heq
    have hnlt : ¬ (a.endTime < now) := by omega
    rw [if_neg hnlt]
  · intro heq hstart
    have hnlt : ¬ (a.endTime < now) := by omega
    have h2 : now ≤ a.endTime := by omega
    simp only [scheduleStatus]
    rw [if_neg hnlt, if_pos (by simp [hstart, h2])]

/-- Witness for C4's corrected statement, at the exact-equal boundary. -/
theorem completed_flag_strict_witness :
    ((Placed.mk c4Event "event-normal").colorClass = "event-completed" ↔
        (Placed.mk c4Event "event-normal").ev.endTime < 1000) ∧
    ((Placed.mk c4Event "event-normal").ev.endTime = 1000 →
        (Placed.mk c4Event "event-normal").colorClass = "event-normal") ∧
    ((Placed.mk c4Event "event-normal").ev.endTime = 1000 →
        (Placed.mk c4Event "event-normal").ev.start ≤ 1000 →
        scheduleStatus 1000 (Placed.mk c4Event "event-normal").ev = "▸") :=
  completed_flag_strict [c4Event] 0 1000 0 (Placed.mk c4Event "event-normal")
    (Or.inl (by decide))

/-- An event on Wednesday of the displayed week (bucket index 2), for the C1
counterexample. -/
def c1Event : JsEvent := ⟨"w", "Wed standup", 176400000, 180000000, false⟩

/-- C1 counterexample: it is false that the today-sidebar is empty whenever
the displayed week is not the current week. With the displayed anchor at 0
(different from the current week's anchor) and today's weekday index 2, the
displayed week's Wednesday event passes the filter, because
`updateTodaySchedule` computes the bucket index against the DISPLAYED week's
anchor, not against `now`. -/
theorem today_sidebar_nonempty_on_other_week :
    ¬ ∀ (evs : List JsEvent) (ws tIdx nowWeekStart : Int),
        ws ≠ nowWeekStart → todayEvents evs ws tIdx = [] := by
  intro h
  have h2 := h [c1Event] 0 2 604800000 (by decide)
  have h3 : c1Event ∈ todayEvents [c1Event] 0 2 := by
    unfold todayEvents
    rw [List.mem_mergeSort]
    decide
  rw [h2] at h3
  exact absurd h3 (by simp)

/-- C1 (corrected): the sidebar shows exactly the displayed week's timed
events whose bucket index — computed against the displayed week's anchor —
equals today's weekday index; navigating to another week therefore shows that
week's events on today's weekday rather than an empty agenda. -/
theorem today_sidebar_filter_characterization (evs : List JsEvent) (ws tIdx : Int)
    (e : JsEvent) :
    e ∈ todayEvents evs ws tIdx ↔
      e ∈ evs ∧ e.isAllDay = false ∧ bucketIdx e.start ws = tIdx := by
  unfold todayEvents
  rw [List.mem_mergeSort, List.mem_filter]
  simp [Bool.and_eq_true, beq_iff_eq, Bool.not_eq_true']

/-- C10 (confirmed): a successful `move_event` fetches the stored resource,
replaces exactly its `start` and `end` keys (`end` computed as the new start
plus `duration_minutes`), writes the resource back, and preserves the value of
every other key; no other stored event is touched (the store map only rewrites
the moved id). -/
theorem move_event_frame (pyIso : String → Option PyDateTime) (st : RemoteState)
    (eid iso : String) (dur : Int) (ev : GDict) (ns : PyDateTime)
    (h1 : st.store.lookup eid = some ev)
    (h2 : pyIso (stripZ iso) = some ns) :
    ∃ ev2 : GDict,
      move_event true pyIso st eid iso dur =
        (OpResult.ok,
          { store := st.store.map fun p => if p.1 == eid then (p.1, ev2) else p,
            calls := st.calls ++ [RemoteCall.getCall eid, RemoteCall.updateCall eid ev2] }) ∧
      ev2.lookup "start" = some (JVal.tdict
        [("dateTime", fmtIso ns), ("timeZone", "America/Los_Angeles")]) ∧
      ev2.lookup "end" = some (JVal.tdict
        [("dateTime", fmtIso (addSeconds ns (dur * 60))), ("timeZone", "America/Los_Angeles")]) ∧
      ∀ k : String, k ≠ "start" → k ≠ "end" → ev2.lookup k = ev.lookup k := by
  refine ⟨dictSet (dictSet ev "start"
      (JVal.tdict [("dateTime", fmtIso ns), ("timeZone", "America/Los_Angeles")])) "end"
      (JVal.tdict [("dateTime", fmtIso (addSeconds ns (dur * 60))),
        ("timeZone", "America/Los_Angeles")]), ?_, ?_, ?_, ?_⟩
  · simp [move_event, h1, h2]
  · rw [lookup_dictSet_ne _ _ _ _ (by decide)]
    exact lookup_dictSet_self _ _ _
  · exact lookup_dictSet_self _ _ _
  · intro k hks hke
    rw [lookup_dictSet_ne _ _ _ _ hke, lookup_dictSet_ne _ _ _ _ hks]

/-- A stored remote event with extra fields, for the C10 witness. -/
def sampleRemoteEvent : GDict :=
  [("id", JVal.str "e1"), ("summary", JVal.str "Standup"),
   ("description", JVal.str "bring notes"),
   ("start", JVal.tdict [("dateTime", "2025-01-13T09:00:00")]),
   ("end", JVal.tdict [("dateTime", "2025-01-13T09:30:00")])]

/-- Witness for C10 on a concrete store: moving `e1` to 2025-01-15 10:00 with
duration 60 rewrites only `start`/`end`. -/
theorem move_event_frame_witness :
    ∃ ev2 : GDict,
      move_event true pyIsoFix ⟨[("e1", sampleRemoteEvent)], []⟩ "e1"
          "2025-01-15T10:00:00" 60 =
        (OpResult.ok,
          { store := (RemoteState.mk [("e1", sampleRemoteEvent)] []).store.map
              fun p => if p.1 == "e1" then (p.1, ev2) else p,
            calls := (RemoteState.mk [("e1", sampleRemoteEvent)] []).calls ++
              [RemoteCall.getCall "e1", RemoteCall.updateCall "e1" ev2] }) ∧
      ev2.lookup "start" = some (JVal.tdict
        [("dateTime", fmtIso ⟨2025, 1, 15, 10, 0, 0⟩),
         ("timeZone", "America/Los_Angeles")]) ∧
      ev2.lookup "end" = some (JVal.tdict
        [("dateTime", fmtIso (addSeconds ⟨2025, 1, 15, 10, 0, 0⟩ (60 * 60))),
         ("timeZone", "America/Los_Angeles")]) ∧
      ∀ k : String, k ≠ "start" → k ≠ "end" →
        ev2.lookup k = sampleRemoteEvent.lookup k :=
  move_event_frame pyIsoFix ⟨[("e1", sampleRemoteEvent)], []⟩ "e1"
    "2025-01-15T10:00:00" 60 sampleRemoteEvent ⟨2025, 1, 15, 10, 0, 0⟩
    (by decide) (by decide)

end TodoCalendar
